import Mathlib

/-!
Verification of the BlockILU0 block incomplete-LU preconditioner.

The repository ships the unit tests of the preconditioner
(src/tests/unit/linalg/test_ilu.cpp) together with miniapp driver code; the
BlockILU0 class itself (block-graph extraction, in-place block ILU(0)
factorization and the forward/backward-substitution apply) is part of the
underlying MFEM library and is not among the repository's source files.  The
definitions below therefore model that class from the specification, and the
concrete matrices of the unit tests are used as the deciding fixtures.

All scalar arithmetic is carried out exactly over the rationals, which models
the IEEE double-precision arithmetic of the code without rounding error; the
tests compare against closed-form rational values to a 1e-12 tolerance, and
exact equality of the rational values implies those checks.
-/

namespace ILUModel

/-- Modelled from the spec: a finalized scalar sparse matrix in
compressed-row form (row pointers, column indices, values).  Each inner list
is one scalar row, holding the structurally non-zero entries of that row as
(column, value) pairs; the concatenation of the rows together with the row
lengths is exactly the CSR triple.  The `finalized` flag records whether the
matrix has been finalized (no pending unflushed insertions). -/
structure SparseMatrixCSR where
  n : Nat
  rows : List (List (Nat × ℚ))
  finalized : Bool

/-- The CSR row of scalar row `r` (empty when out of range). -/
def rowOf (A : SparseMatrixCSR) (r : Nat) : List (Nat × ℚ) :=
  A.rows.getD r []

/-- Value stored with key `c` in a CSR row; zero when no entry has that
column index. -/
def lookupQ (c : Nat) : List (Nat × ℚ) → ℚ
  | [] => 0
  | p :: rest => if p.1 = c then p.2 else lookupQ c rest

/-- Value stored at scalar position (r, c); zero when the entry is
structurally absent from the sparse matrix. -/
def getEntry (A : SparseMatrixCSR) (r c : Nat) : ℚ :=
  lookupQ c (rowOf A r)

/-- Whether scalar entry (r, c) is structurally non-zero (present in the
sparse matrix). -/
def structNZ (A : SparseMatrixCSR) (r c : Nat) : Bool :=
  (rowOf A r).any (fun p => p.1 == c)

/-- Modelled from the spec: block (i, j) of the Nb-blocked matrix is
structurally non-zero when at least one scalar entry of rows
i*Nb..i*Nb+Nb-1 lies in a column whose containing block column (integer
division by Nb) is j. -/
def blockNZ (A : SparseMatrixCSR) (Nb i j : Nat) : Bool :=
  (List.range Nb).any (fun bi => (rowOf A (i * Nb + bi)).any (fun p => p.1 / Nb == j))

/-- Modelled from the spec: block (i, j) belongs to the block pattern when it
is structurally non-zero or lies on the diagonal (the diagonal block is
force-included to guarantee a pivot location). -/
def blockPresentB (A : SparseMatrixCSR) (Nb i j : Nat) : Bool :=
  j == i || blockNZ A Nb i j

/-- Modelled from the spec: the block columns of block row `i`, in ascending
order (the deterministic ordering option of the extraction contract). -/
def blockCols (A : SparseMatrixCSR) (Nb N i : Nat) : List Nat :=
  (List.range N).filter (blockPresentB A Nb i)

/-- Start offset of block row `i` into the block column-index sequence:
the total number of pattern blocks of the rows before `i`. -/
def IBfun (A : SparseMatrixCSR) (Nb N i : Nat) : Nat :=
  ((List.range i).map (fun r => (blockCols A Nb N r).length)).sum

/-- Modelled from the spec: the block row-pointer sequence `IB`
(length N+1). -/
def IBof (A : SparseMatrixCSR) (Nb N : Nat) : List Nat :=
  (List.range (N + 1)).map (IBfun A Nb N)

/-- Modelled from the spec: the block column-index sequence `JB`, grouped
contiguously per block row. -/
def JBof (A : SparseMatrixCSR) (Nb N : Nat) : List Nat :=
  (List.range N).flatMap (fun i => blockCols A Nb N i)

/-- The pattern blocks as (block row, block column) pairs, in `JB` order. -/
def blockList (A : SparseMatrixCSR) (Nb N : Nat) : List (Nat × Nat) :=
  (List.range N).flatMap (fun i => (blockCols A Nb N i).map (fun j => (i, j)))

/-! Dense Nb x Nb block algebra.  A dense block is a total function
`Nat → Nat → ℚ` read on indices below Nb. -/

/-- Product of two Nb x Nb dense blocks. -/
def matMul (Nb : Nat) (M1 M2 : Nat → Nat → ℚ) : Nat → Nat → ℚ :=
  fun i j => ((List.range Nb).map (fun k => M1 i k * M2 k j)).sum

/-- Difference of two dense blocks. -/
def matSub (M1 M2 : Nat → Nat → ℚ) : Nat → Nat → ℚ :=
  fun i j => M1 i j - M2 i j

/-- The minor of a dense block: drop row `r` and column `c`. -/
def minorAt (M : Nat → Nat → ℚ) (r c : Nat) : Nat → Nat → ℚ :=
  fun i j => M (if i < r then i else i + 1) (if j < c then j else j + 1)

/-- Determinant of an n x n dense block, by Laplace expansion along the
first column. -/
def detN : Nat → (Nat → Nat → ℚ) → ℚ
  | 0, _ => 1
  | n + 1, M =>
    ((List.range (n + 1)).map (fun r => (-1) ^ r * M r 0 * detN n (minorAt M r 0))).sum

/-- Inverse of an n x n dense block via the adjugate; models the exact
solves with the dense LU factors of a pivot block (exact arithmetic makes
the two coincide whenever the block is non-singular). -/
def invN (n : Nat) (M : Nat → Nat → ℚ) : Nat → Nat → ℚ :=
  fun i j => ((-1) ^ (i + j) * detN (n - 1) (minorAt M j i)) / detN n M

/-- Dense copy of the Nb x Nb submatrix of `A` at block (i, j): every entry
is explicitly materialized, with structurally absent scalar entries zero. -/
def rawBlock (A : SparseMatrixCSR) (Nb i j : Nat) : Nat → Nat → ℚ :=
  fun bi bj => getEntry A (i * Nb + bi) (j * Nb + bj)

/-- Modelled from the spec: one pivot step k of the in-place block ILU(0)
elimination.  For every pattern block (i, k) below the pivot, the L-block
A(i,k) * A(k,k)^-1 replaces A(i,k); for every pattern pair with (k, j) and
(i, j) present and j > k, the Schur update A(i,j) -= L(i,k) * A(k,j) is
applied.  Pairs not already structurally present are skipped (the 0 of
ILU(0)). -/
def iluStep (A : SparseMatrixCSR) (Nb k : Nat)
    (F : Nat → Nat → Nat → Nat → ℚ) : Nat → Nat → Nat → Nat → ℚ :=
  fun i j =>
    if k < i ∧ blockPresentB A Nb i k = true then
      if j = k then matMul Nb (F i k) (invN Nb (F k k))
      else if k < j ∧ blockPresentB A Nb k j = true ∧ blockPresentB A Nb i j = true then
        matSub (F i j) (matMul Nb (matMul Nb (F i k) (invN Nb (F k k))) (F k j))
      else F i j
    else F i j

/-- Modelled from the spec: the blocks after the in-place block ILU(0)
factorization, obtained by running the pivot steps k = 0..N-1 in increasing
block-row order on the raw dense blocks. -/
def factorBlocks (A : SparseMatrixCSR) (Nb N : Nat) : Nat → Nat → Nat → Nat → ℚ :=
  (List.range N).foldl (fun F k => iluStep A Nb k F) (rawBlock A Nb)

/-- Column-major flattening of one dense Nb x Nb block: entry (bi, bj) is
stored at local offset bi + bj*Nb. -/
def flatBlock (Nb : Nat) (M : Nat → Nat → ℚ) : List ℚ :=
  (List.range Nb).flatMap (fun bj => (List.range Nb).map (fun bi => M bi bj))

/-- The dense block buffer before factorization: one flattened raw block per
pattern block, in `JB` order. -/
def rawABof (A : SparseMatrixCSR) (Nb N : Nat) : List ℚ :=
  (blockList A Nb N).flatMap (fun p => flatBlock Nb (rawBlock A Nb p.1 p.2))

/-- The dense block buffer after factorization, in `JB` order. -/
def ABof (A : SparseMatrixCSR) (Nb N : Nat) : List ℚ :=
  (blockList A Nb N).flatMap (fun p => flatBlock Nb (factorBlocks A Nb N p.1 p.2))

/-- The state owned by a BlockILU0 instance: the block graph (IB, JB) and
the flat dense block buffer AB. -/
structure BlockILU0 where
  N : Nat
  Nb : Nat
  IB : List Nat
  JB : List Nat
  AB : List ℚ

/-- Modelled from the spec: construction of the preconditioner.  The block
graph and the dense blocks are built from the input matrix and the
factorization is performed eagerly, so AB already holds the factored
blocks when the constructor returns. -/
def blockILU0 (A : SparseMatrixCSR) (Nb : Nat) : BlockILU0 :=
  ⟨A.n / Nb, Nb, IBof A Nb (A.n / Nb), JBof A Nb (A.n / Nb), ABof A Nb (A.n / Nb)⟩

/-- Modelled from the spec: the construction-time precondition checks.
Construction fails fast - producing no factorization state at all - when
the matrix dimension is not a multiple of the block size or the matrix is
not finalized. -/
def blockILU0Checked (A : SparseMatrixCSR) (Nb : Nat) : Option BlockILU0 :=
  if 0 < Nb ∧ A.n % Nb = 0 ∧ A.finalized = true then some (blockILU0 A Nb) else none

/-- The dense block stored at block index `k` of the AB buffer, read per the
documented column-major-per-block layout: entry (bi, bj) of block k lives at
AB[bi + bj*Nb + k*Nb*Nb]. -/
def blockOf (ilu : BlockILU0) (k : Nat) : Nat → Nat → ℚ :=
  fun bi bj => ilu.AB.getD (bi + bj * ilu.Nb + k * (ilu.Nb * ilu.Nb)) 0

/-- The block indices of block row `i`, i.e. the half-open range
[IB[i], IB[i+1]). -/
def rowKs (ilu : BlockILU0) (i : Nat) : List Nat :=
  List.range' (ilu.IB.getD i 0) (ilu.IB.getD (i + 1) 0 - ilu.IB.getD i 0)

/-- The block index of diagonal block (i, i) inside block row `i`. -/
def diagIdxOf (ilu : BlockILU0) (i : Nat) : Nat :=
  (((rowKs ilu i).find? (fun k => ilu.JB.getD k 0 == i)).getD 0)

/-- Product of a dense Nb x Nb block with a length-Nb sub-vector. -/
def matVec (Nb : Nat) (M : Nat → Nat → ℚ) (v : Nat → ℚ) : Nat → ℚ :=
  fun bi => ((List.range Nb).map (fun bj => M bi bj * v bj)).sum

/-- Modelled from the spec: block forward substitution on the stored
factors.  Block rows are processed in increasing order; sub-block i of y is
the i-th sub-block of the right-hand side minus the contributions of the
stored L-blocks of row i (the pattern blocks left of the diagonal), applied
to the already computed sub-blocks.  The block L factor has identity
diagonal blocks, so no diagonal solve occurs here. -/
def fwdSub (ilu : BlockILU0) (b : Nat → ℚ) : Nat → Nat → ℚ :=
  (List.range ilu.N).foldl
    (fun y m => fun i bi =>
      if i = m then
        b (m * ilu.Nb + bi)
          - (((rowKs ilu m).filter (fun k => ilu.JB.getD k 0 < m)).map
              (fun k => matVec ilu.Nb (blockOf ilu k) (y (ilu.JB.getD k 0)) bi)).sum
      else y i bi)
    (fun _ _ => 0)

/-- Modelled from the spec: block backward substitution on the stored
factors.  Block rows are processed in decreasing order; sub-block i of the
solution is the processed diagonal block's inverse applied to sub-block i
of y minus the contributions of the stored U-blocks of row i (the pattern
blocks right of the diagonal). -/
def bwdSub (ilu : BlockILU0) (y : Nat → Nat → ℚ) : Nat → Nat → ℚ :=
  (List.range ilu.N).foldl
    (fun x m => fun i2 bi =>
      if i2 = ilu.N - 1 - m then
        matVec ilu.Nb (invN ilu.Nb (blockOf ilu (diagIdxOf ilu (ilu.N - 1 - m))))
          (fun bj => y (ilu.N - 1 - m) bj
            - (((rowKs ilu (ilu.N - 1 - m)).filter
                  (fun k => ilu.N - 1 - m < ilu.JB.getD k 0)).map
                (fun k => matVec ilu.Nb (blockOf ilu k) (x (ilu.JB.getD k 0)) bj)).sum) bi
      else x i2 bi)
    (fun _ _ => 0)

/-- Modelled from the spec: the preconditioner action (Mult/Apply), block
forward substitution followed by block backward substitution, reading only
the stored IB/JB/AB state. -/
def multVec (ilu : BlockILU0) (b : Nat → ℚ) : Nat → ℚ :=
  fun s => bwdSub ilu (fwdSub ilu b) (s / ilu.Nb) (s % ilu.Nb)

/-- Modelled from the spec: Mult as a state transformer.  Apply reads the
factorization state and produces the solution vector; the returned state is
the state it was given, which models that Mult is a const operation on
IB/JB/AB. -/
def multS (ilu : BlockILU0) (b : Nat → ℚ) : BlockILU0 × (Nat → ℚ) :=
  (ilu, multVec ilu b)

/-- `n` successive Apply calls on the same instance, threading the state. -/
def applyIter (b : Nat → ℚ) : Nat → BlockILU0 → BlockILU0
  | 0, ilu => ilu
  | n + 1, ilu => applyIter b n (multS ilu b).1

/-- Sparse matrix-vector product of the scalar CSR matrix. -/
def csrMatVec (A : SparseMatrixCSR) (x : Nat → ℚ) : Nat → ℚ :=
  fun r => ((rowOf A r).map (fun p => p.2 * x p.1)).sum

/-! The fixtures of the unit tests. -/

/-- The 6x6 scalar matrix of the factorization regression fixture
(test_ilu.cpp, ILU Factorization), with its literal values. -/
def fix6 : SparseMatrixCSR :=
  ⟨6,
   [[(0, 1), (1, 2), (2, 3), (3, 4), (4, 5), (5, 6)],
    [(0, 7), (1, 8), (2, 9), (3, 1), (4, 2), (5, 3)],
    [(0, 4), (1, 5), (2, 6), (3, 7)],
    [(0, 8), (1, 9), (2, 1), (3, 2)],
    [(0, 3), (1, 4), (4, 5), (5, 6)],
    [(0, 7), (1, 8), (4, 9), (5, 1)]],
   true⟩

/-- The hand-constructed 5x5 block pattern (block size 3) of the structure
fixture (test_ilu.cpp, ILU Structure), in lexicographic order. -/
def seedPattern : List Nat :=
  [1, 1, 0, 0, 1,
   0, 1, 0, 1, 1,
   0, 0, 1, 0, 0,
   0, 1, 0, 1, 0,
   1, 0, 0, 0, 1]

/-- The 15x15 scalar matrix of the structure fixture: every scalar entry of
every pattern block is set (the test writes full Nb x Nb submatrices), so
scalar row r holds the columns of the pattern blocks of block row r/3. -/
def seedA : SparseMatrixCSR :=
  ⟨15,
   (List.range 15).map (fun r =>
     ((List.range 15).filter (fun c => seedPattern.getD (5 * (r / 3) + c / 3) 0 == 1)).map
       (fun c => (c, (1 : ℚ)))),
   true⟩

/-- A finalized 1x1 sparse matrix with no stored entries. -/
def emptyA : SparseMatrixCSR := ⟨1, [[]], true⟩

/-- A 3x3 arrow-pattern matrix whose scalar ILU(0) factorization discards
fill-in at positions (1,2) and (2,1). -/
def arrowA : SparseMatrixCSR :=
  ⟨3, [[(0, 1), (1, 1), (2, 1)], [(0, 1), (1, 2)], [(0, 1), (2, 2)]], true⟩

/-- A fully dense 2x2 matrix with symbolic entries. -/
def dense2 (a b c d : ℚ) : SparseMatrixCSR :=
  ⟨2, [[(0, a), (1, b)], [(0, c), (1, d)]], true⟩

/-- A length-2 vector with the given components. -/
def vec2 (x0 x1 : ℚ) : Nat → ℚ :=
  fun s => if s = 0 then x0 else if s = 1 then x1 else 0

/-- The third standard basis vector of length 3. -/
def e2vec : Nat → ℚ :=
  fun s => if s = 2 then 1 else 0

/-- The number of structurally non-zero Nb x Nb blocks of the N x N block
grid of the matrix. -/
def nnzBlockCount (A : SparseMatrixCSR) (Nb N : Nat) : Nat :=
  (((List.range N).flatMap (fun i => (List.range N).map (fun j => (i, j)))).filter
    (fun p => blockNZ A Nb p.1 p.2)).length

/-- The number of blocks of the N x N block grid that are structurally
non-zero or diagonal. -/
def patternBlockCount (A : SparseMatrixCSR) (Nb N : Nat) : Nat :=
  (((List.range N).flatMap (fun i => (List.range N).map (fun j => (i, j)))).filter
    (fun p => p.2 == p.1 || blockNZ A Nb p.1 p.2)).length

/-- One elimination step of the classical in-place (Doolittle) dense LU
factorization with L unit-lower-triangular implicit and U upper-triangular
explicit, combined in one n x n buffer. -/
def luStepDense (n k : Nat) (M : Nat → Nat → ℚ) : Nat → Nat → ℚ :=
  fun i j =>
    if k < i ∧ i < n then
      if j = k then M i k / M k k
      else if k < j then M i j - M i k / M k k * M k j
      else M i j
    else M i j

/-- The combined in-place dense LU factors of an n x n block (L
unit-lower-triangular implicit, U upper-triangular explicit, in one
buffer). -/
def combinedLU (n : Nat) (M : Nat → Nat → ℚ) : Nat → Nat → ℚ :=
  (List.range n).foldl (fun M2 k => luStepDense n k M2) M

/-- The L-block of the factored 6x6 fixture at block position (1, 0):
the raw block A(1,0) times the inverse of the pivot block. -/
def L10fix : Nat → Nat → ℚ :=
  matMul 2 (rawBlock fix6 2 1 0) (invN 2 (rawBlock fix6 2 0 0))

/-- The L-block of the factored 6x6 fixture at block position (2, 0). -/
def L20fix : Nat → Nat → ℚ :=
  matMul 2 (rawBlock fix6 2 2 0) (invN 2 (rawBlock fix6 2 0 0))

/-! Shared evaluation lemmas for the 6x6 regression fixture. -/

/-- The block pattern of the 6x6 fixture, in (IB, JB) order. -/
theorem blockList_fix6 :
    blockList fix6 2 3 = [(0, 0), (0, 1), (0, 2), (1, 0), (1, 1), (2, 0), (2, 2)] := by
  decide

/-- The fully evaluated post-factorization AB buffer of the 6x6 fixture. -/
theorem AB_fix6_eval : ABof fix6 2 3 =
    [1, 7, 2, 8, 3, 9, 4, 1, 5, 2, 6, 3, 1/2, -1/6, 1/2, 7/6, 0, -9, 9/2, 3/2,
     2/3, 0, 1/3, 1, 1, 7, 1, -2] := by
  rw [ABof, blockList_fix6]
  norm_num [flatBlock, factorBlocks, iluStep, rawBlock, getEntry, rowOf, fix6,
    blockPresentB, blockNZ, matMul, matSub, invN, detN, minorAt, List.range_succ,
    lookupQ]

/-- The fully evaluated pre-factorization AB buffer of the 6x6 fixture. -/
theorem rawAB_fix6_eval : rawABof fix6 2 3 =
    [1, 7, 2, 8, 3, 9, 4, 1, 5, 2, 6, 3, 4, 8, 5, 9, 6, 1, 7, 2,
     3, 7, 4, 8, 5, 9, 6, 1] := by
  rw [rawABof, blockList_fix6]
  norm_num [flatBlock, rawBlock, getEntry, rowOf, fix6, List.range_succ, lookupQ]

/-! General lemmas about the block graph and the flattened buffers. -/

/-- Indexing a flatMap whose pieces all have length `c`. -/
theorem getD_flatMap_const {α β : Type} (f : α → List β) (c : Nat) (d : β) :
    ∀ (l : List α), (∀ a ∈ l, (f a).length = c) →
      ∀ (k t : Nat), t < c → ∀ (hk : k < l.length),
        (l.flatMap f).getD (k * c + t) d = (f (l.get ⟨k, hk⟩)).getD t d := by
  intro l
  induction l with
  | nil => intro _ k t _ hk; exact absurd hk (by simp)
  | cons a l ih =>
      intro hlen k t ht hk
      cases k with
      | zero =>
          have hlena : (f a).length = c := hlen a (List.mem_cons_self a l)
          rw [List.flatMap_cons, Nat.zero_mul, Nat.zero_add,
            List.getD_append _ _ _ _ (by rw [hlena]; exact ht)]
          rfl
      | succ k =>
          have hlena : (f a).length = c := hlen a (List.mem_cons_self a l)
          have hidx : (k + 1) * c + t = (f a).length + (k * c + t) := by
            rw [hlena]; ring
          rw [List.flatMap_cons, hidx,
            List.getD_append_right _ _ _ _ (Nat.le_add_right _ _),
            Nat.add_sub_cancel_left]
          exact ih (fun x hx => hlen x (List.mem_cons_of_mem _ hx)) k t ht
            (Nat.lt_of_succ_lt_succ hk)

/-- A flattened dense block has Nb*Nb scalar entries. -/
theorem length_flatBlock (Nb : Nat) (M : Nat → Nat → ℚ) :
    (flatBlock Nb M).length = Nb * Nb := by
  simp only [flatBlock, List.length_flatMap, Function.comp_def, List.length_map,
    List.length_range, List.map_const', List.sum_const_nat]

/-- Reading entry (bi, bj) of a flattened dense block at its column-major
offset. -/
theorem getD_flatBlock (Nb : Nat) (M : Nat → Nat → ℚ) (bi bj : Nat)
    (hbi : bi < Nb) (hbj : bj < Nb) (d : ℚ) :
    (flatBlock Nb M).getD (bj * Nb + bi) d = M bi bj := by
  rw [flatBlock]
  rw [getD_flatMap_const (fun bj => (List.range Nb).map (fun bi => M bi bj)) Nb d
    (List.range Nb) (fun a _ => by simp) bj bi hbi (by simpa using hbj)]
  simp only [List.get_eq_getElem, List.getElem_range]
  rw [List.getD_eq_getElem _ _ (by simpa using hbi)]
  simp

/-- Splitting the sum over range (n+1) at its last term. -/
theorem sum_range_map_succ (g : Nat → Nat) (n : Nat) :
    ((List.range (n + 1)).map g).sum = ((List.range n).map g).sum + g n := by
  rw [List.range_succ, List.map_append, List.sum_append]
  simp

/-- Sums of a Nat-valued function over growing ranges are monotone. -/
theorem sum_range_map_mono (g : Nat → Nat) {a b : Nat} (h : a ≤ b) :
    ((List.range a).map g).sum ≤ ((List.range b).map g).sum := by
  induction b with
  | zero =>
      have ha : a = 0 := Nat.le_zero.mp h
      subst ha; exact Nat.le_refl _
  | succ b ih =>
      rcases Nat.eq_or_lt_of_le h with heq | hlt
      · subst heq; exact Nat.le_refl _
      · have hb := ih (Nat.lt_succ_iff.mp hlt)
        rw [sum_range_map_succ]
        omega

/-- The row pointer of block row i+1 adds the length of block row i. -/
theorem IBfun_succ (A : SparseMatrixCSR) (Nb N i : Nat) :
    IBfun A Nb N (i + 1) = IBfun A Nb N i + (blockCols A Nb N i).length :=
  sum_range_map_succ _ i

/-- The row pointers are monotonically non-decreasing. -/
theorem IBfun_mono (A : SparseMatrixCSR) (Nb N : Nat) {a b : Nat} (h : a ≤ b) :
    IBfun A Nb N a ≤ IBfun A Nb N b :=
  sum_range_map_mono _ h

/-- Reading the IB sequence at position i ≤ N yields the i-th row pointer. -/
theorem IBof_getD (A : SparseMatrixCSR) (Nb N i : Nat) (hi : i ≤ N) :
    (IBof A Nb N).getD i 0 = IBfun A Nb N i := by
  rw [IBof, List.getD_eq_getElem _ _ (by simp; omega)]
  simp

/-- The length of JB is the last row pointer. -/
theorem JBof_length (A : SparseMatrixCSR) (Nb N : Nat) :
    (JBof A Nb N).length = IBfun A Nb N N := by
  rw [JBof, List.length_flatMap, IBfun]
  simp only [Function.comp_def]

/-- Indexing a flatMap over a range at the offset of piece i. -/
theorem getD_flatMap_range {β : Type} (f : Nat → List β) (d : β) :
    ∀ (N i : Nat), i < N → ∀ t, t < (f i).length →
      ((List.range N).flatMap f).getD
          ((((List.range i).map (fun r => (f r).length)).sum) + t) d
        = (f i).getD t d := by
  intro N
  induction N with
  | zero => intro i hi; omega
  | succ N ih =>
      intro i hi t ht
      rw [List.range_succ, List.flatMap_append]
      rcases Nat.lt_or_ge i N with hiN | hiN
      · rw [List.getD_append]
        · exact ih i hiN t ht
        · rw [List.length_flatMap]
          simp only [Function.comp_def]
          have h1 : ((List.range i).map (fun r => (f r).length)).sum + t
              < ((List.range (i + 1)).map (fun r => (f r).length)).sum := by
            rw [sum_range_map_succ]; omega
          have h2 : ((List.range (i + 1)).map (fun r => (f r).length)).sum
              ≤ ((List.range N).map (fun r => (f r).length)).sum :=
            sum_range_map_mono _ hiN
          omega
      · have hieq : i = N := by omega
        subst hieq
        rw [List.getD_append_right _ _ _ _
          (by rw [List.length_flatMap]; simp only [Function.comp_def]; exact Nat.le_add_right _ _)]
        rw [List.length_flatMap]
        simp only [Function.comp_def]
        rw [Nat.add_sub_cancel_left]
        simp

/-- Reading JB inside the segment of block row i. -/
theorem JBof_getD_seg (A : SparseMatrixCSR) (Nb N i : Nat) (hi : i < N) (t : Nat)
    (ht : t < (blockCols A Nb N i).length) :
    (JBof A Nb N).getD (IBfun A Nb N i + t) 0 = (blockCols A Nb N i).getD t 0 :=
  getD_flatMap_range _ _ N i hi t ht

/-- A block column is listed for block row i exactly when it is in range and
in the pattern. -/
theorem mem_blockCols (A : SparseMatrixCSR) (Nb N i j : Nat) :
    j ∈ blockCols A Nb N i ↔ j < N ∧ blockPresentB A Nb i j = true := by
  simp [blockCols, List.mem_filter, List.mem_range]

/-- A block is structurally non-zero exactly when one of its scalar entries
is structurally non-zero. -/
theorem blockNZ_iff (A : SparseMatrixCSR) (Nb i j : Nat) (hNb : 0 < Nb) :
    blockNZ A Nb i j = true ↔
      ∃ bi bj, bi < Nb ∧ bj < Nb ∧ structNZ A (i * Nb + bi) (j * Nb + bj) = true := by
  rw [blockNZ]
  simp only [List.any_eq_true, List.mem_range]
  constructor
  · rintro ⟨bi, hbi, p, hp, hdiv⟩
    refine ⟨bi, p.1 % Nb, hbi, Nat.mod_lt _ hNb, ?_⟩
    have hj : p.1 / Nb = j := by simpa using hdiv
    have hc : j * Nb + p.1 % Nb = p.1 := by
      rw [Nat.mul_comm, ← hj]; exact Nat.div_add_mod p.1 Nb
    rw [hc, structNZ]
    simp only [List.any_eq_true]
    exact ⟨p, hp, by simp⟩
  · rintro ⟨bi, bj, hbi, hbj, hs⟩
    rw [structNZ] at hs
    simp only [List.any_eq_true] at hs
    obtain ⟨p, hp, hpc⟩ := hs
    refine ⟨bi, hbi, p, hp, ?_⟩
    have hpc2 : p.1 = j * Nb + bj := by simpa using hpc
    have hdivj : p.1 / Nb = j := by
      rw [hpc2, Nat.mul_comm, Nat.mul_add_div hNb, Nat.div_eq_of_lt hbj, Nat.add_zero]
    simp [hdivj]

/-- Iterated Apply calls leave the factorization state untouched. -/
theorem applyIter_id (bv : Nat → ℚ) : ∀ (n : Nat) (ilu : BlockILU0),
    applyIter bv n ilu = ilu := by
  intro n
  induction n with
  | zero => intro ilu; rfl
  | succ n ih => intro ilu; exact ih ilu

/-! Claim theorems. -/

/-- C1: for every finalized scalar sparse matrix of dimension
(N*Nb)x(N*Nb) and block size Nb, the block graph (IB, JB) produced by
BlockILU0 construction contains block (i, j) if and only if at least one
scalar entry A(i*Nb+bi, j*Nb+bj) is structurally non-zero for some bi, bj
in [0, Nb), or the block is the diagonal block (i, i), which is always
included regardless of whether the scalar diagonal has explicit
non-zeros. -/
theorem c1_block_pattern_iff (A : SparseMatrixCSR) (Nb N i j : Nat)
    (hNb : 0 < Nb) (_hfin : A.finalized = true) (hdim : A.n = N * Nb)
    (hi : i < N) (hj : j < N) :
    (∃ kk : Nat, (blockILU0 A Nb).IB.getD i 0 ≤ kk ∧
        kk < (blockILU0 A Nb).IB.getD (i + 1) 0 ∧ (blockILU0 A Nb).JB.getD kk 0 = j)
      ↔ (j = i ∨ ∃ bi bj : Nat, bi < Nb ∧ bj < Nb ∧
          structNZ A (i * Nb + bi) (j * Nb + bj) = true) := by
  have hN : A.n / Nb = N := by rw [hdim]; exact Nat.mul_div_cancel N hNb
  have hIB : (blockILU0 A Nb).IB = IBof A Nb N := by simp only [blockILU0]; rw [hN]
  have hJB : (blockILU0 A Nb).JB = JBof A Nb N := by simp only [blockILU0]; rw [hN]
  rw [hIB, hJB, IBof_getD A Nb N i (Nat.le_of_lt hi), IBof_getD A Nb N (i + 1) hi,
    IBfun_succ]
  constructor
  · rintro ⟨kk, h1, h2, h3⟩
    have ht : kk - IBfun A Nb N i < (blockCols A Nb N i).length := by omega
    have hkk : IBfun A Nb N i + (kk - IBfun A Nb N i) = kk := by omega
    rw [← hkk, JBof_getD_seg A Nb N i hi _ ht] at h3
    have hmem : j ∈ blockCols A Nb N i := by
      rw [← h3, List.getD_eq_getElem _ _ ht]
      exact List.getElem_mem _
    rw [mem_blockCols] at hmem
    have hpres := hmem.2
    rw [blockPresentB, Bool.or_eq_true] at hpres
    rcases hpres with hji | hnz
    · exact Or.inl (by simpa using hji)
    · exact Or.inr ((blockNZ_iff A Nb i j hNb).mp hnz)
  · intro hyp
    have hpres : blockPresentB A Nb i j = true := by
      rw [blockPresentB, Bool.or_eq_true]
      rcases hyp with hji | hnz
      · exact Or.inl (by simpa using hji)
      · exact Or.inr ((blockNZ_iff A Nb i j hNb).mpr hnz)
    have hmem : j ∈ blockCols A Nb N i := (mem_blockCols A Nb N i j).mpr ⟨hj, hpres⟩
    obtain ⟨⟨t, htl⟩, hget⟩ := List.mem_iff_get.mp hmem
    refine ⟨IBfun A Nb N i + t, Nat.le_add_right _ _, by omega, ?_⟩
    rw [JBof_getD_seg A Nb N i hi t htl, List.getD_eq_getElem _ _ htl]
    simpa using hget

/-- Witness for C1 at the 6x6 fixture with Nb = 2, block (1, 0). -/
theorem c1_block_pattern_iff_witness :
    (∃ kk : Nat, (blockILU0 fix6 2).IB.getD 1 0 ≤ kk ∧
        kk < (blockILU0 fix6 2).IB.getD (1 + 1) 0 ∧ (blockILU0 fix6 2).JB.getD kk 0 = 0)
      ↔ (0 = 1 ∨ ∃ bi bj : Nat, bi < 2 ∧ bj < 2 ∧
          structNZ fix6 (1 * 2 + bi) (0 * 2 + bj) = true) :=
  c1_block_pattern_iff fix6 2 3 1 0 (by decide) rfl (by decide) (by decide) (by decide)

/-- C6: for every constructed factorization, IB has length N+1, IB[0] = 0,
IB is monotonically non-decreasing, IB[N] equals the length of JB, and IB
is preserved by every subsequent Apply operation. -/
theorem c6_IB_invariants (A : SparseMatrixCSR) (Nb : Nat) :
    (blockILU0 A Nb).IB.length = (blockILU0 A Nb).N + 1 ∧
    (blockILU0 A Nb).IB.getD 0 0 = 0 ∧
    (∀ a b : Nat, a ≤ b → b ≤ (blockILU0 A Nb).N →
      (blockILU0 A Nb).IB.getD a 0 ≤ (blockILU0 A Nb).IB.getD b 0) ∧
    (blockILU0 A Nb).IB.getD (blockILU0 A Nb).N 0 = (blockILU0 A Nb).JB.length ∧
    (∀ (bv : Nat → ℚ) (n : Nat),
      (applyIter bv n (blockILU0 A Nb)).IB = (blockILU0 A Nb).IB) := by
  simp only [blockILU0]
  refine ⟨?_, ?_, ?_, ?_, ?_⟩
  · simp [IBof]
  · rw [IBof_getD _ _ _ 0 (Nat.zero_le _)]; rfl
  · intro a b hab hbN
    rw [IBof_getD _ _ _ a (Nat.le_trans hab hbN), IBof_getD _ _ _ b hbN]
    exact IBfun_mono _ _ _ hab
  · rw [IBof_getD _ _ _ _ (Nat.le_refl _), JBof_length]
  · intro bv n; rw [applyIter_id]

/-- Witness for C6: monotonicity of IB at the 6x6 fixture. -/
theorem c6_IB_invariants_witness :
    (blockILU0 fix6 2).IB.getD 1 0 ≤ (blockILU0 fix6 2).IB.getD 3 0 :=
  (c6_IB_invariants fix6 2).2.2.1 1 3 (by decide) (by decide)

/-- C9: for every factorized instance and every right-hand side, Apply
(Mult) leaves IB, JB and AB unchanged, no matter how many times it is
called. -/
theorem c9_apply_frame (ilu : BlockILU0) (bv : Nat → ℚ) (n : Nat) :
    (applyIter bv n ilu).IB = ilu.IB ∧ (applyIter bv n ilu).JB = ilu.JB ∧
      (applyIter bv n ilu).AB = ilu.AB := by
  rw [applyIter_id]
  exact ⟨rfl, rfl, rfl⟩

/-- C8: construction fails fast, producing no factorization state, whenever
the matrix dimension is not a multiple of the block size or the matrix is
not finalized; when the preconditions hold it produces the factorization. -/
theorem c8_checked_construction (A : SparseMatrixCSR) (Nb : Nat) :
    ((¬ A.n % Nb = 0 ∨ A.finalized = false) → blockILU0Checked A Nb = none) ∧
    (0 < Nb → A.n % Nb = 0 → A.finalized = true →
      blockILU0Checked A Nb = some (blockILU0 A Nb)) := by
  constructor
  · intro h
    rw [blockILU0Checked, if_neg]
    rintro ⟨_h1, h2, h3⟩
    rcases h with h4 | h4
    · exact h4 h2
    · rw [h3] at h4; exact Bool.noConfusion h4
  · intro h1 h2 h3
    rw [blockILU0Checked, if_pos ⟨h1, h2, h3⟩]

/-- Witness for C8: a 6x6 matrix with block size 4 is rejected, and the
fixture construction with block size 2 succeeds. -/
theorem c8_checked_construction_witness :
    blockILU0Checked fix6 4 = none ∧
      blockILU0Checked fix6 2 = some (blockILU0 fix6 2) :=
  ⟨(c8_checked_construction fix6 4).1 (Or.inl (by decide)),
   (c8_checked_construction fix6 2).2 (by decide) (by decide) rfl⟩

/-- C4 counterexample: for the finalized 1x1 matrix with no stored entries,
JB holds the force-included diagonal block, so the number of entries in JB
(one) differs from the number of structurally non-zero blocks (zero). -/
theorem c4_counterexample :
    ¬ ((blockILU0 emptyA 1).JB.length = nnzBlockCount emptyA 1 1) := by
  decide

/-- C4 amended: for every input matrix, the number of entries in JB equals
the number of blocks that are structurally non-zero or diagonal (diagonal
blocks are force-included); for the hand-constructed 5x5-block pattern with
block size 3 of the seed test, iterating all entries of (IB, JB) visits
exactly 11 blocks. -/
theorem c4_amended_count :
    (∀ (A : SparseMatrixCSR) (Nb N : Nat), 0 < Nb → A.n = N * Nb →
        (blockILU0 A Nb).JB.length = patternBlockCount A Nb N) ∧
      (blockILU0 seedA 3).JB.length = 11 := by
  constructor
  · intro A Nb N hNb hdim
    have hN : A.n / Nb = N := by rw [hdim]; exact Nat.mul_div_cancel N hNb
    simp only [blockILU0]
    rw [hN, JBof_length, IBfun, patternBlockCount, List.filter_flatMap,
      List.length_flatMap]
    simp only [Function.comp_def, List.filter_map, List.length_map, blockCols,
      blockPresentB]
    rfl
  · decide

/-- Witness for C4 at the seed fixture. -/
theorem c4_amended_count_witness :
    (blockILU0 seedA 3).JB.length = patternBlockCount seedA 3 5 :=
  c4_amended_count.1 seedA 3 5 (by decide) (by decide)

/-- C2: for the fixed 6x6 scalar matrix of the regression fixture factorized
with block size Nb = 2, the post-factorization dense block at block index 3
(the (1, 0) position in LU storage) equals [[1/2, -1/6], [1/2, 7/6]] (exact
rational values, which implies the 1e-12 relative tolerance check), where AB
is read per the documented column-major-per-block layout. -/
theorem c2_block3_values :
    (blockList fix6 2 3).getD 3 (0, 0) = (1, 0) ∧
    (blockILU0 fix6 2).AB.getD (0 + 0 * 2 + 3 * (2 * 2)) 0 = 1/2 ∧
    (blockILU0 fix6 2).AB.getD (1 + 0 * 2 + 3 * (2 * 2)) 0 = -1/6 ∧
    (blockILU0 fix6 2).AB.getD (0 + 1 * 2 + 3 * (2 * 2)) 0 = 1/2 ∧
    (blockILU0 fix6 2).AB.getD (1 + 1 * 2 + 3 * (2 * 2)) 0 = 7/6 := by
  refine ⟨by decide, ?_⟩
  rw [show (blockILU0 fix6 2).AB = ABof fix6 2 3 from rfl, AB_fix6_eval]
  exact ⟨rfl, rfl, rfl, rfl⟩

/-- C3: before factorization overwrites it, every dense block of AB holds a
copy of the corresponding Nb x Nb submatrix of the scalar matrix (entry
(bi, bj) of the k-th pattern block (i, j) holds A(i*Nb+bi, j*Nb+bj)), scalar
entries absent from the sparse matrix are stored as zero, and for the 6x6
fixture with block size 2 the dense block at block index 0 equals
AB[0..3] = 1, 7, 2, 8 in column-major order. -/
theorem c3_raw_copy :
    (∀ (A : SparseMatrixCSR) (Nb N : Nat), 0 < Nb →
      ∀ (k : Nat) (hk : k < (blockList A Nb N).length) (bi bj : Nat), bi < Nb → bj < Nb →
        (rawABof A Nb N).getD (bi + bj * Nb + k * (Nb * Nb)) 0
          = getEntry A (((blockList A Nb N).get ⟨k, hk⟩).1 * Nb + bi)
              (((blockList A Nb N).get ⟨k, hk⟩).2 * Nb + bj)) ∧
    (∀ (A : SparseMatrixCSR) (r c : Nat), structNZ A r c = false → getEntry A r c = 0) ∧
    (rawABof fix6 2 3).take 4 = [1, 7, 2, 8] := by
  refine ⟨?_, ?_, ?_⟩
  · intro A Nb N hNb k hk bi bj hbi hbj
    have hidx : bi + bj * Nb + k * (Nb * Nb) = k * (Nb * Nb) + (bj * Nb + bi) := by ring
    rw [rawABof, hidx]
    have hin : bj * Nb + bi < Nb * Nb := by
      have h1 : bj + 1 ≤ Nb := hbj
      calc bj * Nb + bi < bj * Nb + Nb := by omega
        _ = (bj + 1) * Nb := by ring
        _ ≤ Nb * Nb := Nat.mul_le_mul_right Nb h1
    rw [getD_flatMap_const (fun p => flatBlock Nb (rawBlock A Nb p.1 p.2)) (Nb * Nb) 0
      (blockList A Nb N) (fun p _ => length_flatBlock Nb _) k (bj * Nb + bi) hin hk]
    rw [getD_flatBlock Nb _ bi bj hbi hbj 0]
    rfl
  · intro A r c h
    rw [getEntry]
    rw [structNZ] at h
    suffices hgen : ∀ l : List (Nat × ℚ), l.any (fun p => p.1 == c) = false →
        lookupQ c l = 0 from hgen _ h
    intro l
    induction l with
    | nil => intro _; rfl
    | cons p rest ih =>
        intro hl
        simp only [List.any_cons, Bool.or_eq_false_iff, beq_eq_false_iff_ne, ne_eq] at hl
        rw [lookupQ, if_neg hl.1]
        exact ih hl.2
  · rw [rawAB_fix6_eval]; rfl

/-- Witness for C3: the raw block at block index 3 of the 6x6 fixture copies
the scalar entry A(3, 2). -/
theorem c3_raw_copy_witness :
    (rawABof fix6 2 3).getD (1 + 0 * 2 + 3 * (2 * 2)) 0
      = getEntry fix6 (((blockList fix6 2 3).get ⟨3, by decide⟩).1 * 2 + 1)
          (((blockList fix6 2 3).get ⟨3, by decide⟩).2 * 2 + 0) :=
  c3_raw_copy.1 fix6 2 3 (by decide) 3 (by decide) 1 0 (by decide) (by decide)

/-- C5 counterexample: diagonal block 0 of the factored 6x6 fixture does not
hold the combined dense LU factors of its pivot block.  The stored entry
(1, 1) is 8 (the raw pivot value), whereas the combined factors (L
unit-lower implicit, U upper explicit) would store U(1,1) = -6 there. -/
theorem c5_counterexample :
    ¬ (∀ bi bj : Nat, bi < 2 → bj < 2 →
        (blockILU0 fix6 2).AB.getD (bi + bj * 2 + 0 * (2 * 2)) 0
          = combinedLU 2 (rawBlock fix6 2 0 0) bi bj) := by
  intro h
  have h11 := h 1 1 (by norm_num) (by norm_num)
  rw [show (blockILU0 fix6 2).AB = ABof fix6 2 3 from rfl, AB_fix6_eval] at h11
  norm_num [combinedLU, luStepDense, rawBlock, getEntry, rowOf, fix6, lookupQ,
    List.range_succ] at h11

/-- C5 amended: after factorization, AB is overwritten in place such that
each diagonal block (k, k) holds the Schur-complement-updated pivot block
values (its dense LU factorization is kept separately, not inside AB),
off-diagonal blocks below the diagonal hold L-blocks (A(i,k) times the
inverse of the updated pivot block k), and those above hold U-blocks (the
updated A(k,j) values); decided against all seven blocks of the 6x6 / Nb=2
fixture, in particular the diagonal block indices 0, 4 and 6. -/
theorem c5_amended_storage :
    ABof fix6 2 3 =
      flatBlock 2 (rawBlock fix6 2 0 0) ++ flatBlock 2 (rawBlock fix6 2 0 1)
        ++ flatBlock 2 (rawBlock fix6 2 0 2) ++ flatBlock 2 L10fix
        ++ flatBlock 2 (matSub (rawBlock fix6 2 1 1) (matMul 2 L10fix (rawBlock fix6 2 0 1)))
        ++ flatBlock 2 L20fix
        ++ flatBlock 2 (matSub (rawBlock fix6 2 2 2) (matMul 2 L20fix (rawBlock fix6 2 0 2))) := by
  rw [AB_fix6_eval]
  norm_num [L10fix, L20fix, flatBlock, matMul, matSub, invN, detN, minorAt, rawBlock,
    getEntry, rowOf, fix6, lookupQ, List.range_succ]

/-- C10: factorization is performed eagerly during construction.  Right
after the BlockILU0 constructor returns, AB holds the post-factorization
contents (block index 3 holds the L-block entry 1/2 where the raw copied
submatrix holds 4), not the raw copied values. -/
theorem c10_eager_factorization :
    (blockILU0 fix6 2).AB = ABof fix6 2 3 ∧
    (blockILU0 fix6 2).AB.getD (0 + 0 * 2 + 3 * (2 * 2)) 0 = 1/2 ∧
    (rawABof fix6 2 3).getD (0 + 0 * 2 + 3 * (2 * 2)) 0 = 4 ∧
    (blockILU0 fix6 2).AB ≠ rawABof fix6 2 3 := by
  refine ⟨rfl, ?_, ?_, ?_⟩
  · rw [show (blockILU0 fix6 2).AB = ABof fix6 2 3 from rfl, AB_fix6_eval]; rfl
  · rw [rawAB_fix6_eval]; rfl
  · rw [show (blockILU0 fix6 2).AB = ABof fix6 2 3 from rfl, AB_fix6_eval, rawAB_fix6_eval]
    intro hcon
    simp only [List.cons.injEq] at hcon
    norm_num at hcon

/-- The fully evaluated factorization state of the 3x3 arrow-pattern matrix
with block size 1. -/
theorem ilu_arrow_eval : blockILU0 arrowA 1 =
    ⟨3, 1, [0, 3, 5, 7], [0, 1, 2, 0, 1, 0, 2], [1, 1, 1, 1, 1, 1, 1]⟩ := by
  simp only [blockILU0, BlockILU0.mk.injEq]
  norm_num [IBof, IBfun, JBof, blockCols, blockPresentB, blockNZ, ABof, blockList,
    flatBlock, factorBlocks, iluStep, rawBlock, getEntry, rowOf, arrowA, matMul,
    matSub, invN, detN, minorAt, lookupQ, List.range_succ]

/-- C7 counterexample: for the 3x3 arrow-pattern matrix with block size 1
(trivial blocking, so the block pattern captures 100 percent of the scalar
non-zeros) and all stored pivots non-singular, applying the factorized
preconditioner to A*x for x = e2 yields 1 in component 0 whereas x has 0
there: scalar ILU(0) discards fill-in, so the reconstruction is not
exact. -/
theorem c7_counterexample :
    multVec (blockILU0 arrowA 1) (csrMatVec arrowA e2vec) 0 = 1 ∧ e2vec 0 = 0 ∧
    blockOf (blockILU0 arrowA 1) (diagIdxOf (blockILU0 arrowA 1) 0) 0 0 ≠ 0 ∧
    blockOf (blockILU0 arrowA 1) (diagIdxOf (blockILU0 arrowA 1) 1) 0 0 ≠ 0 ∧
    blockOf (blockILU0 arrowA 1) (diagIdxOf (blockILU0 arrowA 1) 2) 0 0 ≠ 0 := by
  rw [ilu_arrow_eval]
  have hd0 : diagIdxOf (⟨3, 1, [0, 3, 5, 7], [0, 1, 2, 0, 1, 0, 2],
      [1, 1, 1, 1, 1, 1, 1]⟩ : BlockILU0) 0 = 0 := by decide
  have hd1 : diagIdxOf (⟨3, 1, [0, 3, 5, 7], [0, 1, 2, 0, 1, 0, 2],
      [1, 1, 1, 1, 1, 1, 1]⟩ : BlockILU0) 1 = 4 := by decide
  have hd2 : diagIdxOf (⟨3, 1, [0, 3, 5, 7], [0, 1, 2, 0, 1, 0, 2],
      [1, 1, 1, 1, 1, 1, 1]⟩ : BlockILU0) 2 = 6 := by decide
  refine ⟨?_, by norm_num [e2vec], ?_, ?_, ?_⟩
  · norm_num [multVec, bwdSub, fwdSub, rowKs, hd0, hd1, hd2, blockOf, matVec, invN,
      detN, minorAt, csrMatVec, rowOf, arrowA, e2vec, List.range_succ, List.range',
      List.getD]
  · norm_num [blockOf, hd0, List.getD]
  · norm_num [blockOf, hd1, List.getD]
  · norm_num [blockOf, hd2, List.getD]

/-- The fully evaluated factorization state of a fully dense 2x2 matrix with
symbolic entries and block size 1. -/
theorem ilu_dense2_eval (a b c d : ℚ) : blockILU0 (dense2 a b c d) 1 =
    ⟨2, 1, [0, 2, 4], [0, 1, 0, 1], [a, b, c / a, d - c / a * b]⟩ := by
  simp only [blockILU0, BlockILU0.mk.injEq]
  norm_num [IBof, IBfun, JBof, blockCols, blockPresentB, blockNZ, ABof, blockList,
    flatBlock, factorBlocks, iluStep, rawBlock, getEntry, rowOf, dense2, matMul,
    matSub, invN, detN, minorAt, lookupQ, List.range_succ]
  refine ⟨?_, Or.inl ?_⟩ <;> rw [div_eq_mul_inv]

/-- C7 amended: exact reconstruction holds only when the factorization
discards no fill-in: for every fully dense 2x2 matrix (block size 1, a
block pattern that captures all entries and admits no fill outside it)
with both pivots non-singular, and for every vector x, applying the
factorized preconditioner to A*x reconstructs x exactly. -/
theorem c7_amended_exact (a b c d x0 x1 : ℚ) (ha : a ≠ 0) (hp : d - c / a * b ≠ 0) :
    multVec (blockILU0 (dense2 a b c d) 1)
        (csrMatVec (dense2 a b c d) (vec2 x0 x1)) 0 = x0 ∧
    multVec (blockILU0 (dense2 a b c d) 1)
        (csrMatVec (dense2 a b c d) (vec2 x0 x1)) 1 = x1 := by
  rw [ilu_dense2_eval a b c d]
  have hd0 : diagIdxOf (⟨2, 1, [0, 2, 4], [0, 1, 0, 1],
      [a, b, c / a, d - c / a * b]⟩ : BlockILU0) 0 = 0 := rfl
  have hd1 : diagIdxOf (⟨2, 1, [0, 2, 4], [0, 1, 0, 1],
      [a, b, c / a, d - c / a * b]⟩ : BlockILU0) 1 = 3 := rfl
  have hx : c * x0 + d * x1 - c / a * (a * x0 + b * x1) = (d - c / a * b) * x1 := by
    field_simp
    ring
  constructor
  · norm_num [multVec, bwdSub, fwdSub, rowKs, hd0, hd1, blockOf, matVec, invN, detN,
      minorAt, csrMatVec, rowOf, dense2, vec2, List.range_succ, List.range', List.getD]
    rw [hx, inv_mul_cancel_left₀ hp, show a * x0 + b * x1 - b * x1 = a * x0 by ring,
      inv_mul_cancel_left₀ ha]
  · norm_num [multVec, bwdSub, fwdSub, rowKs, hd0, hd1, blockOf, matVec, invN, detN,
      minorAt, csrMatVec, rowOf, dense2, vec2, List.range_succ, List.range', List.getD]
    rw [hx, inv_mul_cancel_left₀ hp]

/-- Witness for C7 amended at the identity 2x2 matrix and x = (2, 3). -/
theorem c7_amended_exact_witness :
    multVec (blockILU0 (dense2 1 0 0 1) 1)
        (csrMatVec (dense2 1 0 0 1) (vec2 2 3)) 0 = 2 ∧
    multVec (blockILU0 (dense2 1 0 0 1) 1)
        (csrMatVec (dense2 1 0 0 1) (vec2 2 3)) 1 = 3 :=
  c7_amended_exact 1 0 0 1 2 3 (by norm_num) (by norm_num)

end ILUModel
